import Mathlib

/-!
Verification of the OpenClaw LiveAvatar gateway client
(src/gateway/client.ts).  Each definition below is a shallow embedding of
the corresponding TypeScript function of the OpenClawGatewayClient class;
the theorems settle the specification claims about the run aggregator,
the request correlator, the reconnect backoff, the message dispatcher and
the response parser.
-/

namespace GatewayClient

/-- Payload of an agent stream event (the data field of AgentEvent in
src/gateway/types.ts); only the fields the client reads are modelled. -/
structure AgentData where
  phase : Option String
  delta : Option String
  error : Option String
deriving DecidableEq

/-- An agent stream event as routed to the sendToAgent handler.  The seq
field is optional in the wire type (GatewayEvent.seq?), and the client
guards every use of it with an undefined check, so it is an Option. -/
structure AgentEvent where
  runId : String
  seq : Option Nat
  stream : String
  data : Option AgentData
deriving DecidableEq

/-- The per-run mutable state of sendToAgent: the processedSeqs set, the
collectedText accumulator and the completed flag. -/
structure RunState where
  processedSeqs : List Nat
  collectedText : String
  completed : Bool
deriving DecidableEq

/-- The settled result resolveResponse is called with (AgentResponse in
src/gateway/types.ts, runId omitted as it is fixed for one run). -/
structure AgentResponse where
  status : String
  text : Option String
deriving DecidableEq

/-- Fresh state at the start of a run. -/
def initialRunState : RunState := ⟨[], "", false⟩

/-- The delta read performed by the client: event.data?.delta under a JS
truthiness test, so an absent data object, an absent delta and an empty
delta string all count as no delta. -/
def truthyDelta (e : AgentEvent) : Option String :=
  match e.data with
  | some d =>
    match d.delta with
    | some s => if s = "" then none else some s
    | none => none
  | none => none

/-- The phase read event.data?.phase (strict equality comparisons, so no
truthiness conversion is involved). -/
def eventPhase (e : AgentEvent) : Option String :=
  match e.data with
  | some d => d.phase
  | none => none

/-- The error text exposed on a lifecycle error:
event.data?.error with the JS or-fallback, so an absent data object, an
absent error and an empty error string all yield the generic message. -/
def errorText (e : AgentEvent) : String :=
  match e.data with
  | some d =>
    match d.error with
    | some s => if s = "" then "Agent encountered an error" else s
    | none => "Agent encountered an error"
  | none => "Agent encountered an error"

/-- The duplicate test of processEvent: event.seq is defined and already
in the processedSeqs set. -/
def seqSeen (s : RunState) (e : AgentEvent) : Bool :=
  match e.seq with
  | some n => decide (n ∈ s.processedSeqs)
  | none => false

/-- processedSeqs.add(event.seq), a no-op when seq is undefined. -/
def recordSeq (s : RunState) (e : AgentEvent) : RunState :=
  match e.seq with
  | some n => { s with processedSeqs := n :: s.processedSeqs }
  | none => s

/-- The assistant-stream branch: collectedText += event.data.delta. -/
def appendDelta (s : RunState) (e : AgentEvent) : RunState :=
  if e.stream = "assistant" then
    match truthyDelta e with
    | some d => { s with collectedText := s.collectedText ++ d }
    | none => s
  else s

/-- Shallow embedding of processEvent in sendToAgent: early return when
the run is completed or the seq is a duplicate, then record the seq,
append an assistant delta, and settle on a lifecycle end or error
phase.  The settled AgentResponse carries collectedText under the JS
or-undefined fallback on completion and the error text on failure. -/
def processEvent (s : RunState) (e : AgentEvent) :
    RunState × Option AgentResponse :=
  if s.completed then (s, none)
  else if seqSeen s e then (s, none)
  else
    let s2 := appendDelta (recordSeq s e) e
    if e.stream = "lifecycle" ∧ eventPhase e = some "end" then
      ({ s2 with completed := true },
        some { status := "completed",
               text := if s2.collectedText = "" then none
                       else some s2.collectedText })
    else if e.stream = "lifecycle" ∧ eventPhase e = some "error" then
      ({ s2 with completed := true },
        some { status := "failed", text := some (errorText e) })
    else (s2, none)

/-- Delivering a list of events for one run to processEvent in arrival
order.  The run settles with the first response produced; once the
completed flag is set every later event is the early-return no-op, which
is also why processing past the settlement leaves the state unchanged. -/
def runEvents : RunState → List AgentEvent → RunState × Option AgentResponse
  | s, [] => (s, none)
  | s, e :: rest =>
    let p := processEvent s e
    let q := runEvents p.1 rest
    (q.1, match p.2 with | some r => some r | none => q.2)

/-- Removal of later deliveries of an already seen sequence number: the
at-most-once stream the spec compares a duplicated delivery against.
Events without a seq are always kept, matching the guard in
processEvent. -/
def dedupBySeq : List Nat → List AgentEvent → List AgentEvent
  | _, [] => []
  | seen, e :: rest =>
    match e.seq with
    | some n =>
      if n ∈ seen then dedupBySeq seen rest
      else e :: dedupBySeq (n :: seen) rest
    | none => e :: dedupBySeq seen rest

lemma processEvent_of_completed (s : RunState) (e : AgentEvent)
    (h : s.completed = true) : processEvent s e = (s, none) := by
  simp [processEvent, h]

lemma runEvents_of_completed (l : List AgentEvent) :
    ∀ s : RunState, s.completed = true → runEvents s l = (s, none) := by
  induction l with
  | nil => intro s _; rfl
  | cons e rest ih =>
    intro s h
    simp [runEvents, processEvent_of_completed s e h, ih s h]

lemma appendDelta_seqs (s : RunState) (e : AgentEvent) :
    (appendDelta s e).processedSeqs = s.processedSeqs := by
  unfold appendDelta
  split
  · cases truthyDelta e <;> rfl
  · rfl

lemma recordSeq_mem (s : RunState) (e : AgentEvent) (n : Nat)
    (h : n ∈ s.processedSeqs) : n ∈ (recordSeq s e).processedSeqs := by
  unfold recordSeq
  cases e.seq
  · exact h
  · exact List.mem_cons_of_mem _ h

lemma processEvent_of_seen (s : RunState) (e : AgentEvent)
    (hc : s.completed = false) (hs : seqSeen s e = true) :
    processEvent s e = (s, none) := by
  simp [processEvent, hc, hs]

lemma processEvent_fst_seqs_live (s : RunState) (e : AgentEvent)
    (hc : s.completed = false) (hs : seqSeen s e = false) :
    (processEvent s e).1.processedSeqs = (recordSeq s e).processedSeqs := by
  simp only [processEvent, hc, hs, Bool.false_eq_true, if_false]
  split
  · simp [appendDelta_seqs]
  · split
    · simp [appendDelta_seqs]
    · simp [appendDelta_seqs]

lemma processEvent_seqs_mono (s : RunState) (e : AgentEvent) (n : Nat)
    (h : n ∈ s.processedSeqs) :
    n ∈ (processEvent s e).1.processedSeqs := by
  cases hc : s.completed with
  | true => rw [processEvent_of_completed s e hc]; exact h
  | false =>
    cases hs : seqSeen s e with
    | true => rw [processEvent_of_seen s e hc hs]; exact h
    | false =>
      rw [processEvent_fst_seqs_live s e hc hs]
      exact recordSeq_mem s e n h

lemma processEvent_seqs_record (s : RunState) (e : AgentEvent) (n : Nat)
    (hc : s.completed = false) (he : e.seq = some n)
    (hn : n ∉ s.processedSeqs) :
    n ∈ (processEvent s e).1.processedSeqs := by
  have hseen : seqSeen s e = false := by simp [seqSeen, he, hn]
  rw [processEvent_fst_seqs_live s e hc hseen]
  simp [recordSeq, he]

lemma processEvent_skip (s : RunState) (e : AgentEvent) (n : Nat)
    (hc : s.completed = false) (he : e.seq = some n)
    (hn : n ∈ s.processedSeqs) : processEvent s e = (s, none) := by
  have hseen : seqSeen s e = true := by simp [seqSeen, he, hn]
  simp [processEvent, hc, hseen]

lemma runEvents_dedup (l : List AgentEvent) :
    ∀ (s : RunState) (seen : List Nat),
      (∀ n ∈ seen, n ∈ s.processedSeqs) →
      runEvents s l = runEvents s (dedupBySeq seen l) := by
  induction l with
  | nil => intro s seen _; rfl
  | cons e rest ih =>
    intro s seen hinv
    cases hc : s.completed with
    | true =>
      rw [runEvents_of_completed _ s hc, runEvents_of_completed _ s hc]
    | false =>
      cases he : e.seq with
      | none =>
        have htail : runEvents (processEvent s e).1 rest =
            runEvents (processEvent s e).1 (dedupBySeq seen rest) :=
          ih _ seen fun n hn => processEvent_seqs_mono s e n (hinv n hn)
        simp [dedupBySeq, he, runEvents, htail]
      | some n =>
        by_cases hn : n ∈ seen
        · have hskip := processEvent_skip s e n hc he (hinv n hn)
          simp [dedupBySeq, he, hn, runEvents, hskip, ih s seen hinv]
        · have htail : runEvents (processEvent s e).1 rest =
              runEvents (processEvent s e).1 (dedupBySeq (n :: seen) rest) := by
            refine ih _ (n :: seen) fun m hm => ?_
            rcases List.mem_cons.mp hm with hm | hm
            · rw [hm]
              by_cases hmem : n ∈ s.processedSeqs
              · exact processEvent_seqs_mono s e n hmem
              · exact processEvent_seqs_record s e n hc he hmem
            · exact processEvent_seqs_mono s e m (hinv m hm)
          simp [dedupBySeq, he, hn, runEvents, htail]

/-- Claim C2: delivering events with a given sequence number between one
and N times produces exactly the run outcome (state and settlement, in
particular the accumulated text) of delivering only the first arrival of
each sequence number: duplicate deliveries are discarded via the
processedSeqs set. -/
theorem duplicateDeliveryIdempotent (l : List AgentEvent) :
    runEvents initialRunState l =
      runEvents initialRunState (dedupBySeq [] l) :=
  runEvents_dedup l initialRunState [] (by intro n hn; cases hn)

/-- Out-of-order arrival used for claim C1: fragments with seq 3, 1, 2
arriving in that order, then a lifecycle end. -/
def outOfOrderRun : List AgentEvent :=
  [⟨"r1", some 3, "assistant", some ⟨none, some "C", none⟩⟩,
   ⟨"r1", some 1, "assistant", some ⟨none, some "A", none⟩⟩,
   ⟨"r1", some 2, "assistant", some ⟨none, some "B", none⟩⟩,
   ⟨"r1", some 4, "lifecycle", some ⟨some "end", none, none⟩⟩]

/-- The same fragments delivered in sequence-number order. -/
def inOrderRun : List AgentEvent :=
  [⟨"r1", some 1, "assistant", some ⟨none, some "A", none⟩⟩,
   ⟨"r1", some 2, "assistant", some ⟨none, some "B", none⟩⟩,
   ⟨"r1", some 3, "assistant", some ⟨none, some "C", none⟩⟩,
   ⟨"r1", some 4, "lifecycle", some ⟨some "end", none, none⟩⟩]

/-- Claim C1: the code appends assistant deltas in arrival order and
never reorders by sequence number, so the out-of-order delivery of the
fragments with seq 3, 1, 2 settles with the arrival-order concatenation,
which differs from the sequence-number-order concatenation obtained for
the in-order delivery. -/
theorem arrivalOrderNotSeqOrder :
    (runEvents initialRunState outOfOrderRun).2 =
      some ⟨"completed", some "CAB"⟩ ∧
    (runEvents initialRunState inOrderRun).2 =
      some ⟨"completed", some "ABC"⟩ ∧
    ("CAB" : String) ≠ "ABC" := by
  refine ⟨by decide, by decide, by decide⟩

lemma appendDelta_of_not_assistant (s : RunState) (e : AgentEvent)
    (h : e.stream ≠ "assistant") : appendDelta s e = s := by
  simp [appendDelta, h]

lemma recordSeq_collectedText (s : RunState) (e : AgentEvent) :
    (recordSeq s e).collectedText = s.collectedText := by
  unfold recordSeq; cases e.seq <;> rfl

/-- Claim C3: a lifecycle end event on a live run settles it with status
completed carrying the accumulated text (undefined when the accumulation
is empty, per the JS or-undefined fallback), and a lifecycle error event
settles it with status failed carrying the server-supplied error text or
the generic message when that text is absent or empty. -/
theorem lifecycleSettlement (s : RunState) (e : AgentEvent)
    (hc : s.completed = false) (hs : seqSeen s e = false)
    (hstream : e.stream = "lifecycle") :
    (eventPhase e = some "end" →
      processEvent s e =
        ({ recordSeq s e with completed := true },
         some { status := "completed",
                text := if s.collectedText = "" then none
                        else some s.collectedText })) ∧
    (eventPhase e = some "error" →
      (processEvent s e).2 =
        some { status := "failed", text := some (errorText e) }) ∧
    (∀ d, e.data = some d → d.error = none →
      errorText e = "Agent encountered an error") ∧
    (∀ d t, e.data = some d → d.error = some t → t ≠ "" →
      errorText e = t) := by
  have hna : e.stream ≠ "assistant" := by rw [hstream]; decide
  have happ : ∀ s1 : RunState, appendDelta s1 e = s1 :=
    fun s1 => appendDelta_of_not_assistant s1 e hna
  refine ⟨?_, ?_, ?_, ?_⟩
  · intro hphase
    simp [processEvent, hc, hs, hstream, hphase, happ,
      recordSeq_collectedText]
  · intro hphase
    simp [processEvent, hc, hs, hstream, hphase, happ]
  · intro d hd herr
    simp [errorText, hd, herr]
  · intro d t hd ht htne
    simp [errorText, hd, ht, htne]

/-- Sample lifecycle end event used to witness lifecycleSettlement. -/
def sampleEndEvent : AgentEvent :=
  ⟨"r1", some 2, "lifecycle", some ⟨some "end", none, none⟩⟩

theorem lifecycleSettlementWitness :
    processEvent ⟨[0, 1], "Hi there", false⟩ sampleEndEvent =
      (⟨[2, 0, 1], "Hi there", true⟩,
       some ⟨"completed", some "Hi there"⟩) :=
  (lifecycleSettlement ⟨[0, 1], "Hi there", false⟩ sampleEndEvent
    (by decide) (by decide) rfl).1 rfl

/-- An assistant delta event whose seq field is undefined. -/
def noSeqDelta (rid d : String) : AgentEvent :=
  ⟨rid, none, "assistant", some ⟨none, some d, none⟩⟩

/-- Claim C10: deduplication only covers events carrying a sequence
number, so an assistant delta event with an undefined seq is applied on
every delivery: delivering it twice appends its delta twice. -/
theorem undefinedSeqReprocessed (s : RunState) (rid d : String)
    (hc : s.completed = false) (hd : d ≠ "") :
    (runEvents s [noSeqDelta rid d, noSeqDelta rid d]).1.collectedText =
      s.collectedText ++ d ++ d := by
  simp [runEvents, processEvent, seqSeen, recordSeq, appendDelta,
    truthyDelta, eventPhase, noSeqDelta, hc, hd]

theorem undefinedSeqReprocessedWitness :
    (runEvents initialRunState
      [noSeqDelta "r1" "Hi", noSeqDelta "r1" "Hi"]).1.collectedText =
      "HiHi" :=
  undefinedSeqReprocessed initialRunState "r1" "Hi" rfl (by decide)

/-! ## Request/response correlator (sendRequest and handleMessage) -/

/-- The fixed per-request deadline of sendRequest, in milliseconds. -/
def requestTimeoutMs : Nat := 30000

/-- A happening the correlator reacts to: an incoming response message
for a request id (the res branch of handleMessage) or the firing of that
id's timeout timer (the setTimeout callback in sendRequest). -/
inductive CorEvent where
  | res : String → Bool → CorEvent
  | timeoutFire : String → CorEvent
deriving DecidableEq

/-- How a pending request settles. -/
inductive Outcome where
  | resolvedOk : Outcome
  | rejectedFail : Outcome
  | requestTimeout : Outcome
deriving DecidableEq

/-- The request id a correlator happening concerns. -/
def CorEvent.target : CorEvent → String
  | res i _ => i
  | timeoutFire i => i

/-- One correlator step over the pendingRequests map, modelled as the
list of tracked ids: a response settles and removes the id when it is
still tracked and is a no-op otherwise; a timeout firing settles the id
with a timeout rejection when it is still tracked (the has check before
the delete in the setTimeout callback). -/
def corStep (st : List String) :
    CorEvent → List String × Option (String × Outcome)
  | .res i ok =>
    if i ∈ st then
      (st.erase i, some (i, if ok then .resolvedOk else .rejectedFail))
    else (st, none)
  | .timeoutFire i =>
    if i ∈ st then (st.erase i, some (i, .requestTimeout))
    else (st, none)

/-- Running the correlator over a sequence of happenings, collecting
every settlement it performs. -/
def corRun : List String → List CorEvent → List String × List (String × Outcome)
  | st, [] => (st, [])
  | st, e :: rest =>
    let p := corStep st e
    let q := corRun p.1 rest
    (q.1, (match p.2 with | some r => [r] | none => []) ++ q.2)

/-- How many settlements a given request id received. -/
def settledFor (i : String) (outs : List (String × Outcome)) : Nat :=
  (outs.filter fun p => p.1 == i).length

lemma settledFor_append (i : String) (a b : List (String × Outcome)) :
    settledFor i (a ++ b) = settledFor i a + settledFor i b := by
  simp [settledFor, List.filter_append]

lemma corStep_fst_subset (st : List String) (e : CorEvent) :
    (corStep st e).1 ⊆ st := by
  cases e with
  | res j ok =>
    by_cases hj : j ∈ st
    · simpa [corStep, hj] using List.erase_subset j st
    · simp [corStep, hj]
  | timeoutFire j =>
    by_cases hj : j ∈ st
    · simpa [corStep, hj] using List.erase_subset j st
    · simp [corStep, hj]

lemma corStep_settle_target (st : List String) (e : CorEvent)
    (r : String × Outcome) (h : (corStep st e).2 = some r) :
    r.1 = e.target ∧ r.1 ∈ st := by
  cases e with
  | res j ok =>
    by_cases hj : j ∈ st
    · simp [corStep, hj] at h
      rw [← h]
      exact ⟨rfl, hj⟩
    · simp [corStep, hj] at h
  | timeoutFire j =>
    by_cases hj : j ∈ st
    · simp [corStep, hj] at h
      rw [← h]
      exact ⟨rfl, hj⟩
    · simp [corStep, hj] at h

lemma corStep_target_not_mem (st : List String) (e : CorEvent) (i : String)
    (ht : e.target = i) (h : i ∉ st) : corStep st e = (st, none) := by
  cases e with
  | res j ok =>
    simp only [CorEvent.target] at ht
    subst ht
    simp [corStep, h]
  | timeoutFire j =>
    simp only [CorEvent.target] at ht
    subst ht
    simp [corStep, h]

lemma corStep_target_mem (st : List String) (e : CorEvent) (i : String)
    (ht : e.target = i) (h : i ∈ st) :
    ∃ o : Outcome, corStep st e = (st.erase i, some (i, o)) := by
  cases e with
  | res j ok =>
    simp only [CorEvent.target] at ht
    subst ht
    exact ⟨if ok then .resolvedOk else .rejectedFail, by simp [corStep, h]⟩
  | timeoutFire j =>
    simp only [CorEvent.target] at ht
    subst ht
    exact ⟨.requestTimeout, by simp [corStep, h]⟩

lemma corStep_count_other (st : List String) (e : CorEvent) (i : String)
    (ht : e.target ≠ i) :
    List.count i (corStep st e).1 = List.count i st := by
  have key : ∀ j : String, j ≠ i →
      List.count i (if j ∈ st then st.erase j else st) = List.count i st := by
    intro j hj
    by_cases hjs : j ∈ st
    · simp [hjs, List.count_erase_of_ne (fun h => hj h.symm)]
    · simp [hjs]
  cases e with
  | res j ok =>
    simp only [CorEvent.target] at ht
    by_cases hj : j ∈ st
    · simpa [corStep, hj] using key j ht
    · simp [corStep, hj]
  | timeoutFire j =>
    simp only [CorEvent.target] at ht
    by_cases hj : j ∈ st
    · simpa [corStep, hj] using key j ht
    · simp [corStep, hj]

lemma corStep_mem_other (st : List String) (e : CorEvent) (i : String)
    (ht : e.target ≠ i) (h : i ∈ st) : i ∈ (corStep st e).1 := by
  cases e with
  | res j ok =>
    simp only [CorEvent.target] at ht
    by_cases hj : j ∈ st
    · simp only [corStep, hj, if_true]
      exact (List.mem_erase_of_ne (Ne.symm ht)).mpr h
    · simpa [corStep, hj] using h
  | timeoutFire j =>
    simp only [CorEvent.target] at ht
    by_cases hj : j ∈ st
    · simp only [corStep, hj, if_true]
      exact (List.mem_erase_of_ne (Ne.symm ht)).mpr h
    · simpa [corStep, hj] using h

lemma corRun_not_pending (i : String) (tr : List CorEvent) :
    ∀ st : List String, i ∉ st → settledFor i (corRun st tr).2 = 0 := by
  induction tr with
  | nil => intro st _; rfl
  | cons e rest ih =>
    intro st h
    have h1 : i ∉ (corStep st e).1 := fun hm => h (corStep_fst_subset st e hm)
    have h2 : settledFor i
        ((match (corStep st e).2 with | some r => [r] | none => [])) = 0 := by
      cases hr : (corStep st e).2 with
      | none => rfl
      | some r =>
        have hmem := (corStep_settle_target st e r hr).2
        have hne : ¬ (r.1 == i) = true := by
          simp only [beq_iff_eq]
          exact fun he => h (he ▸ hmem)
        simp [settledFor, List.filter, hne]
    simp [corRun, settledFor_append, h2, ih _ h1]

lemma corRun_at_most (i : String) (tr : List CorEvent) :
    ∀ st : List String, List.count i st ≤ 1 →
      settledFor i (corRun st tr).2 ≤ 1 := by
  induction tr with
  | nil => intro st _; exact Nat.zero_le 1
  | cons e rest ih =>
    intro st hcount
    by_cases ht : e.target = i
    · by_cases hm : i ∈ st
      · obtain ⟨o, ho⟩ := corStep_target_mem st e i ht hm
        have hz : settledFor i (corRun (st.erase i) rest).2 = 0 := by
          apply corRun_not_pending
          have hcz : List.count i (st.erase i) = 0 := by
            rw [List.count_erase_self]
            omega
          exact List.count_eq_zero.mp hcz
        have hone : settledFor i [(i, o)] = 1 := by simp [settledFor]
        have hlist : (corRun st (e :: rest)).2 =
            [(i, o)] ++ (corRun (st.erase i) rest).2 := by
          simp [corRun, ho]
        rw [hlist, settledFor_append, hone, hz]
      · rw [show corRun st (e :: rest) =
            ((corRun st rest).1, (match (none : Option (String × Outcome)) with
              | some r => [r] | none => []) ++ (corRun st rest).2) from by
            simp [corRun, corStep_target_not_mem st e i ht hm]]
        simpa [settledFor_append, settledFor] using ih st hcount
    · have hc1 : List.count i (corStep st e).1 ≤ 1 :=
        (corStep_count_other st e i ht) ▸ hcount
      have h2 : settledFor i
          ((match (corStep st e).2 with | some r => [r] | none => [])) = 0 := by
        cases hr : (corStep st e).2 with
        | none => rfl
        | some r =>
          have htar := (corStep_settle_target st e r hr).1
          have hne : ¬ (r.1 == i) = true := by
            simp only [beq_iff_eq]
            exact fun he => ht (htar ▸ he)
          simp [settledFor, List.filter, hne]
      have := ih (corStep st e).1 hc1
      simp only [corRun, settledFor_append, h2]
      omega

lemma corRun_at_least (i : String) (tr : List CorEvent) :
    ∀ st : List String, i ∈ st → (∃ e ∈ tr, CorEvent.target e = i) →
      1 ≤ settledFor i (corRun st tr).2 := by
  induction tr with
  | nil =>
    intro st _ hex
    rcases hex with ⟨e, he, _⟩
    cases he
  | cons e rest ih =>
    intro st hm hex
    by_cases ht : e.target = i
    · obtain ⟨o, ho⟩ := corStep_target_mem st e i ht hm
      have hone : settledFor i [(i, o)] = 1 := by simp [settledFor]
      have hlist : (corRun st (e :: rest)).2 =
          [(i, o)] ++ (corRun (st.erase i) rest).2 := by
        simp [corRun, ho]
      rw [hlist, settledFor_append, hone]
      omega
    · have hm1 : i ∈ (corStep st e).1 := corStep_mem_other st e i ht hm
      have hex1 : ∃ e2 ∈ rest, CorEvent.target e2 = i := by
        rcases hex with ⟨e2, he2, hte⟩
        rcases List.mem_cons.mp he2 with he2 | he2
        · exact absurd (he2 ▸ hte) ht
        · exact ⟨e2, he2, hte⟩
      have := ih (corStep st e).1 hm1 hex1
      simp only [corRun, settledFor_append]
      omega

/-- Claim C4: a pending request settles exactly once: over any sequence
of correlator happenings containing at least one happening for the
request id (the 30-second timeout guarantees one), exactly one
settlement for that id is produced; a response for an untracked
(already timed-out) id is a no-op; a timeout firing on a tracked id
settles it with the timeout rejection; and the deadline is the fixed
30000 ms. -/
theorem requestSettlesExactlyOnce :
    (∀ (st : List String) (tr : List CorEvent) (i : String),
      List.count i st = 1 → (∃ e ∈ tr, CorEvent.target e = i) →
      settledFor i (corRun st tr).2 = 1) ∧
    (∀ (st : List String) (i : String) (ok : Bool),
      i ∉ st → corStep st (CorEvent.res i ok) = (st, none)) ∧
    (∀ (st : List String) (i : String),
      i ∈ st → (corStep st (CorEvent.timeoutFire i)).2 =
        some (i, Outcome.requestTimeout)) ∧
    requestTimeoutMs = 30000 := by
  refine ⟨?_, ?_, ?_, rfl⟩
  · intro st tr i hc hex
    have h1 := corRun_at_most i tr st (le_of_eq hc)
    have h2 := corRun_at_least i tr st
      (List.count_pos_iff.mp (by omega)) hex
    omega
  · intro st i ok h
    simp [corStep, h]
  · intro st i h
    simp [corStep, h]

theorem requestSettlesExactlyOnceWitness :
    settledFor "1" (corRun ["1"]
      [CorEvent.timeoutFire "1", CorEvent.res "1" true]).2 = 1 :=
  requestSettlesExactlyOnce.1 ["1"]
    [CorEvent.timeoutFire "1", CorEvent.res "1" true] "1"
    (by decide) ⟨CorEvent.timeoutFire "1", by decide, rfl⟩

/-! ## Connection manager reconnect backoff (handleReconnect) -/

/-- maxReconnectAttempts field initializer of the client. -/
def maxReconnectAttempts : Nat := 5

/-- reconnectDelay field initializer of the client (the base delay). -/
def reconnectDelay : Nat := 1000

/-- The manager state handleReconnect reads and writes. -/
structure MgrState where
  connectionState : String
  reconnectAttempts : Nat
deriving DecidableEq

/-- Shallow embedding of handleReconnect: when the attempt counter has
reached the cap it returns without scheduling anything and without
touching any state; otherwise it increments the counter and schedules a
reconnect after reconnectDelay * 2 ^ (newAttempts - 1) milliseconds. -/
def handleReconnect (s : MgrState) : Option Nat × MgrState :=
  if s.reconnectAttempts ≥ maxReconnectAttempts then (none, s)
  else
    (some (reconnectDelay * 2 ^ ((s.reconnectAttempts + 1) - 1)),
     { s with reconnectAttempts := s.reconnectAttempts + 1 })

/-- Claim C5: below the cap the scheduled delay is the base delay times
2 ^ attempt; delays of consecutive scheduled attempts are non-decreasing;
and once the attempt counter has reached the cap, handleReconnect
schedules nothing and leaves the state (in particular a disconnected
connectionState) unchanged, so nothing happens until connect() is
invoked again. -/
theorem reconnectBackoff :
    (∀ s : MgrState, s.reconnectAttempts < maxReconnectAttempts →
      (handleReconnect s).1 =
        some (reconnectDelay * 2 ^ s.reconnectAttempts)) ∧
    (∀ (s s1 s2 : MgrState) (d d2 : Nat),
      handleReconnect s = (some d, s1) →
      handleReconnect s1 = (some d2, s2) → d ≤ d2) ∧
    (∀ s : MgrState, maxReconnectAttempts ≤ s.reconnectAttempts →
      handleReconnect s = (none, s)) := by
  refine ⟨?_, ?_, ?_⟩
  · intro s h
    have hne : ¬ s.reconnectAttempts ≥ maxReconnectAttempts := Nat.not_le.mpr h
    simp [handleReconnect, hne]
  · intro s s1 s2 d d2 h1 h2
    by_cases hc : s.reconnectAttempts ≥ maxReconnectAttempts
    · simp [handleReconnect, hc] at h1
    · simp only [handleReconnect, hc, if_neg hc] at h1
      obtain ⟨hd, hs1⟩ := Prod.mk.injEq .. ▸ h1
      by_cases hc2 : s1.reconnectAttempts ≥ maxReconnectAttempts
      · simp [handleReconnect, hc2] at h2
      · simp only [handleReconnect, hc2, if_neg hc2] at h2
        obtain ⟨hd2, _⟩ := Prod.mk.injEq .. ▸ h2
        have hs1a : s1.reconnectAttempts = s.reconnectAttempts + 1 := by
          rw [← hs1]
        rw [← Option.some.injEq] at hd hd2
        have : d = reconnectDelay * 2 ^ s.reconnectAttempts := by
          simpa using hd.symm
        have h2d : d2 = reconnectDelay * 2 ^ s1.reconnectAttempts := by
          simpa using hd2.symm
        rw [this, h2d, hs1a]
        exact Nat.mul_le_mul_left _
          (Nat.pow_le_pow_right (by decide) (Nat.le_succ _))
  · intro s h
    simp [handleReconnect, h]

theorem reconnectBackoffWitness :
    (handleReconnect ⟨"disconnected", 0⟩).1 = some 1000 ∧
    handleReconnect ⟨"disconnected", 5⟩ = (none, ⟨"disconnected", 5⟩) :=
  ⟨reconnectBackoff.1 ⟨"disconnected", 0⟩ (by decide),
   reconnectBackoff.2.2 ⟨"disconnected", 5⟩ (by decide)⟩

/-! ## disconnect() -/

/-- The client state disconnect reads and writes: the socket handle, the
connection state and the pendingRequests map (as its list of ids). -/
structure ClientState where
  wsOpen : Bool
  connectionState : String
  pendingRequests : List String
deriving DecidableEq

/-- Shallow embedding of disconnect(): close and null the socket when
present and set the connection state to disconnected.  Nothing else is
touched; in particular pendingRequests is left as it is. -/
def disconnect (s : ClientState) : ClientState :=
  { s with wsOpen := false, connectionState := "disconnected" }

/-- Claim C6 uses parseResponse below; claim C8 counterexample:
disconnect() does not clear the pending request map — with one tracked
request, that request is still tracked after disconnect() returns. -/
theorem disconnectKeepsPending :
    (disconnect ⟨true, "connected", ["1"]⟩).pendingRequests = ["1"] ∧
    (["1"] : List String) ≠ [] := by
  decide

/-- Claim C8 amended: disconnect() is idempotent — a second call leaves
the client state unchanged — closing the socket and setting the state to
disconnected, but it does not clear pending state: the pendingRequests
map is untouched and its entries settle individually via their
30-second timeouts. -/
theorem disconnectIdempotentNoClear (s : ClientState) :
    disconnect (disconnect s) = disconnect s ∧
    (disconnect s).wsOpen = false ∧
    (disconnect s).connectionState = "disconnected" ∧
    (disconnect s).pendingRequests = s.pendingRequests := by
  simp [disconnect]

/-! ## Message dispatch (handleMessage over onMessageHandlers) -/

/-- A registered message listener as handleMessage runs it: it updates a
log of observed effects and either returns normally or throws. -/
def Listener : Type := List Nat → List Nat × Option String

/-- The forEach over onMessageHandlers: listeners run in registration
order; a thrown exception aborts the iteration (there is no per-listener
try/catch in handleMessage), keeping the effects performed so far. -/
def dispatchAll : List Listener → List Nat → List Nat × Option String
  | [], s => (s, none)
  | h :: rest, s =>
    match h s with
    | (s1, none) => dispatchAll rest s1
    | (s1, some e) => (s1, some e)

/-- handleMessage around the listener loop: the surrounding try/catch
swallows whatever escapes, so the socket read loop survives and only
the effects up to the faulty listener remain. -/
def handleMessageListeners (hs : List Listener) (s : List Nat) : List Nat :=
  (dispatchAll hs s).1

/-- A listener that records its mark and returns normally. -/
def recorder (k : Nat) : Listener := fun s => (s ++ [k], none)

/-- A listener that records its mark and then throws. -/
def thrower (k : Nat) : Listener := fun s => (s ++ [k], some "listener threw")

/-- Claim C9 counterexample: with a throwing listener registered before
a recording listener, dispatch stops at the throw — the second listener
never runs (its mark 1 is absent from the log), although the claim says
every registered listener runs. -/
theorem faultyListenerBlocksRest :
    handleMessageListeners [thrower 0, recorder 1] [] = [0] ∧
    ([0] : List Nat) ≠ [0, 1] := by
  constructor
  · rfl
  · decide

lemma dispatchAll_append_ok (hs : List Listener) :
    ∀ (s s1 : List Nat), dispatchAll hs s = (s1, none) →
      ∀ rest : List Listener, dispatchAll (hs ++ rest) s = dispatchAll rest s1 := by
  induction hs with
  | nil =>
    intro s s1 h rest
    have : s = s1 := congrArg Prod.fst h
    rw [List.nil_append, this]
  | cons h0 tl ih =>
    intro s s1 h rest
    rw [List.cons_append]
    show (match h0 s with
      | (t, none) => dispatchAll (tl ++ rest) t
      | (t, some e) => (t, some e)) = dispatchAll rest s1
    rw [show dispatchAll (h0 :: tl) s = (match h0 s with
      | (t, none) => dispatchAll tl t
      | (t, some e) => (t, some e)) from rfl] at h
    rcases hh : h0 s with ⟨t, oe⟩
    cases oe with
    | none =>
      rw [hh] at h
      simp only at h
      simp only [ih t s1 h rest]
    | some e =>
      rw [hh] at h
      simp at h

/-- Claim C9 amended: listeners are invoked synchronously in
registration order up to the first exception; a listener exception is
swallowed by the message-level catch (dispatch always returns a log, so
the read loop survives), but every listener registered after the faulty
one is skipped for that message. -/
theorem dispatchOrderAndSwallow :
    (∀ (hs : List Listener) (s s1 : List Nat),
      dispatchAll hs s = (s1, none) →
      ∀ rest : List Listener,
        dispatchAll (hs ++ rest) s = dispatchAll rest s1) ∧
    (∀ (pre post : List Listener) (h : Listener) (s s1 s2 : List Nat)
        (e : String),
      dispatchAll pre s = (s1, none) → h s1 = (s2, some e) →
      handleMessageListeners (pre ++ h :: post) s = s2) := by
  refine ⟨dispatchAll_append_ok, ?_⟩
  intro pre post h s s1 s2 e hpre hthrow
  unfold handleMessageListeners
  rw [dispatchAll_append_ok pre s s1 hpre (h :: post)]
  show (match h s1 with
    | (t, none) => dispatchAll post t
    | (t, some e2) => (t, some e2)).1 = s2
  rw [hthrow]

theorem dispatchOrderAndSwallowWitness :
    handleMessageListeners [recorder 0, thrower 1, recorder 2] [] = [0, 1] :=
  dispatchOrderAndSwallow.2 [recorder 0] [recorder 2] (thrower 1) [] [0]
    [0, 1] "listener threw" rfl rfl

/-! ## Response parser (parseResponse and truncateToSentences) -/

/-- ASCII lowercasing, for the case-insensitive regex flag; the marker
patterns consist of ASCII letters and brackets only. -/
def lowerAscii (c : Char) : Char :=
  if 'A' ≤ c ∧ c ≤ 'Z' then Char.ofNat (c.toNat + 32) else c

/-- Case-insensitive character comparison. -/
def ciEqChar (a b : Char) : Bool := lowerAscii a = lowerAscii b

/-- Case-insensitive test that the pattern is a prefix of the text. -/
def ciBegins : List Char → List Char → Bool
  | [], _ => true
  | _ :: _, [] => false
  | p :: ps, c :: cs => ciEqChar p c && ciBegins ps cs

/-- The opening summary-block marker. -/
def openMarker : List Char := ['[', 'T', 'T', 'S', ']']

/-- The closing summary-block marker. -/
def closeMarker : List Char := ['[', '/', 'T', 'T', 'S', ']']

/-- The lazy part of the block regex: scan for the first closing marker;
on success return the capture before it and the suffix after it. -/
def findClose : List Char → Option (List Char × List Char)
  | [] => none
  | c :: rest =>
    if ciBegins closeMarker (c :: rest) then some ([], (c :: rest).drop 6)
    else
      match findClose rest with
      | some (cap, a) => some (c :: cap, a)
      | none => none

/-- The leftmost lazy match of the block regex: the text before the
opening marker, the capture, and the text after the closing marker.
A position with an opening marker but no closing marker anywhere after
it is skipped, as the backtracking regex engine does. -/
def findTTSMatch : List Char → Option (List Char × List Char × List Char)
  | [] => none
  | c :: rest =>
    if ciBegins openMarker (c :: rest) then
      match findClose ((c :: rest).drop 5) with
      | some (cap, a) => some ([], cap, a)
      | none =>
        match findTTSMatch rest with
        | some (b, cap, a) => some (c :: b, cap, a)
        | none => none
    else
      match findTTSMatch rest with
      | some (b, cap, a) => some (c :: b, cap, a)
      | none => none

/-- The whitespace characters String.prototype.trim removes (ASCII
subset; the marker and sentence characters the theorems rest on are all
ASCII and never whitespace). -/
def isJsWS (c : Char) : Bool :=
  c = ' ' || c = '\t' || c = '\n' || c = '\r' ||
  c = Char.ofNat 11 || c = Char.ofNat 12

/-- String.prototype.trim. -/
def trimList (l : List Char) : List Char :=
  ((l.dropWhile isJsWS).reverse.dropWhile isJsWS).reverse

/-- The one optional newline the removal regex consumes right after the
closing marker. -/
def dropLeadNL : List Char → List Char
  | '\n' :: rest => rest
  | l => l

/-- A sentence terminator of the fallback regex. -/
def isTerm (c : Char) : Bool := c = '.' || c = '!' || c = '?'

/-- The global sentence regex: repeatedly skip terminator characters,
take a maximal nonempty run of non-terminators, then a maximal nonempty
run of terminators; a trailing unterminated run yields no match.  The
fuel argument only drives termination and is in excess at every call. -/
def splitSentencesAux : Nat → List Char → List (List Char)
  | 0, _ => []
  | fuel + 1, l =>
    let l1 := l.dropWhile isTerm
    let body := l1.takeWhile fun c => !(isTerm c)
    let rest := l1.dropWhile fun c => !(isTerm c)
    let terms := rest.takeWhile isTerm
    let rest2 := rest.dropWhile isTerm
    if body.isEmpty || terms.isEmpty then []
    else (body ++ terms) :: splitSentencesAux fuel rest2

/-- text.match of the sentence regex (an absent match list is the empty
list, per the JS or-fallback). -/
def sentencesOf (l : List Char) : List (List Char) :=
  splitSentencesAux l.length l

/-- The fallback accumulation loop of parseResponse: take trimmed
sentences while the 400-character budget allows it, except that the
first sentence is always taken; sentences are joined with one space. -/
def buildTts : List Char → List (List Char) → List Char
  | tts, [] => tts
  | tts, s :: rest =>
    let st := trimList s
    if tts.length + st.length > 400 ∧ tts.length > 0 then tts
    else buildTts (tts ++ (if tts.isEmpty then [] else [' ']) ++ st) rest

/-- String.prototype.lastIndexOf for a pattern: the largest start index
at which the pattern occurs, if any. -/
def lastIndexOfPat (l pat : List Char) : Option Nat :=
  ((List.range (l.length + 1)).filter fun i => pat.isPrefixOf (l.drop i)
    ).getLast?

/-- The -1 convention of JS lastIndexOf. -/
def liToInt : Option Nat → Int
  | none => -1
  | some i => (i : Int)

/-- Shallow embedding of truncateToSentences.  The source compares the
candidate cut against the float products maxLength * 0.5 and
maxLength * 0.7; they are written here as the exact comparisons
cut * 2 > maxLength and cut * 10 > maxLength * 7, which agree with the
double arithmetic at the only call site maxLength = 300 (where the
products are exactly 150 and 210). -/
def truncateToSentences (l : List Char) (maxLength : Nat) : List Char :=
  if l.length ≤ maxLength then l
  else
    let t := l.take maxLength
    let lastSentence : Int :=
      max (max (max (liToInt (lastIndexOfPat t ['.', ' ']))
                    (liToInt (lastIndexOfPat t ['!', ' '])))
               (max (liToInt (lastIndexOfPat t ['?', ' ']))
                    (liToInt (lastIndexOfPat t ['.', '\n']))))
          (max (liToInt (lastIndexOfPat t ['!', '\n']))
               (liToInt (lastIndexOfPat t ['?', '\n'])))
    if lastSentence * 2 > (maxLength : Int) then
      trimList (t.take (lastSentence + 1).toNat)
    else
      let lastSpace : Int := liToInt (lastIndexOfPat t [' '])
      if lastSpace * 10 > (maxLength : Int) * 7 then
        trimList (t.take lastSpace.toNat) ++ ['.', '.', '.']
      else
        trimList t ++ ['.', '.', '.']

/-- Shallow embedding of parseResponse over the characters of the input
text: the block branch returns the trimmed capture and the input with
the matched block (plus one following newline) removed and trimmed,
falling back to the whole input when that removal is empty; without a
block, the sentence-accumulation fallback runs with its truncation
last resort. -/
def parseResponse (l : List Char) : List Char × List Char :=
  match findTTSMatch l with
  | some (b, cap, a) =>
    let tts := trimList cap
    let full := trimList (b ++ dropLeadNL a)
    (tts, if full.isEmpty then l else full)
  | none =>
    let tts := buildTts [] ((sentencesOf l).take 5)
    (if tts.isEmpty then truncateToSentences l 300 else tts, l)

lemma ciBegins_length (p : List Char) :
    ∀ l, ciBegins p l = true → p.length ≤ l.length := by
  induction p with
  | nil => intro l _; exact Nat.zero_le _
  | cons c ps ih =>
    intro l h
    cases l with
    | nil => simp [ciBegins] at h
    | cons d ls =>
      simp only [ciBegins, Bool.and_eq_true] at h
      simpa using Nat.succ_le_succ (ih ls h.2)

lemma findClose_spec (l : List Char) :
    ∀ cap a, findClose l = some (cap, a) →
      ∃ m, l = cap ++ m ++ a ∧ m.length = 6 ∧
        ciBegins closeMarker (m ++ a) = true ∧
        ∀ i < cap.length, ciBegins closeMarker (l.drop i) = false := by
  induction l with
  | nil => intro cap a h; simp [findClose] at h
  | cons c rest ih =>
    intro cap a h
    by_cases hp : ciBegins closeMarker (c :: rest) = true
    · rw [show findClose (c :: rest) = some ([], (c :: rest).drop 6) from by
        simp [findClose, hp]] at h
      simp only [Option.some.injEq, Prod.mk.injEq] at h
      obtain ⟨hcap, ha⟩ := h
      subst hcap
      subst ha
      refine ⟨(c :: rest).take 6, ?_, ?_, ?_, ?_⟩
      · simp only [List.nil_append]
        exact (List.take_append_drop 6 (c :: rest)).symm
      · have h6 : 6 ≤ (c :: rest).length :=
          ciBegins_length closeMarker (c :: rest) hp
        rw [List.length_take, List.length_cons]
        rw [List.length_cons] at h6
        omega
      · rw [List.take_append_drop 6 (c :: rest)]
        exact hp
      · intro i hi
        exact absurd hi (Nat.not_lt_zero i)
    · have hp2 : ciBegins closeMarker (c :: rest) = false :=
        Bool.not_eq_true _ ▸ hp
      rw [show findClose (c :: rest) = (match findClose rest with
          | some (cap, a) => some (c :: cap, a) | none => none) from by
        simp [findClose, hp2]] at h
      cases hr : findClose rest with
      | none => rw [hr] at h; simp at h
      | some pr =>
        obtain ⟨cap1, a1⟩ := pr
        rw [hr] at h
        simp only [Option.some.injEq, Prod.mk.injEq] at h
        obtain ⟨hcap, ha⟩ := h
        subst hcap
        subst ha
        obtain ⟨m, hm1, hm2, hm3, hm4⟩ := ih cap1 a1 hr
        refine ⟨m, ?_, hm2, hm3, ?_⟩
        · rw [List.cons_append, List.cons_append]
          exact congrArg (List.cons c) hm1
        · intro i hi
          cases i with
          | zero => simpa using hp2
          | succ j =>
            have hj : j < cap1.length := by
              rw [List.length_cons] at hi
              omega
            simpa using hm4 j hj

lemma findTTSMatch_spec (l : List Char) :
    ∀ b cap a, findTTSMatch l = some (b, cap, a) →
      ∃ om cm, l = b ++ om ++ cap ++ cm ++ a ∧
        om.length = 5 ∧ cm.length = 6 ∧
        ciBegins openMarker (om ++ cap ++ cm ++ a) = true ∧
        ciBegins closeMarker (cm ++ a) = true ∧
        ∀ i < cap.length,
          ciBegins closeMarker ((cap ++ cm ++ a).drop i) = false := by
  induction l with
  | nil => intro b cap a h; simp [findTTSMatch] at h
  | cons c rest ih =>
    intro b cap a h
    by_cases hp : ciBegins openMarker (c :: rest) = true
    · cases hfc : findClose ((c :: rest).drop 5) with
      | some pr =>
        obtain ⟨cap0, a0⟩ := pr
        have hfc4 : findClose (List.drop 4 rest) = some (cap0, a0) := hfc
        rw [show findTTSMatch (c :: rest) = some ([], cap0, a0) from by
          simp [findTTSMatch, hp, hfc4]] at h
        simp only [Option.some.injEq, Prod.mk.injEq] at h
        obtain ⟨hb, hcap, ha⟩ := h
        subst hb
        subst hcap
        subst ha
        obtain ⟨m, hm1, hm2, hm3, hm4⟩ := findClose_spec _ cap0 a0 hfc
        have h5 : 5 ≤ (c :: rest).length :=
          ciBegins_length openMarker (c :: rest) hp
        have hdecomp : c :: rest = (c :: rest).take 5 ++ (cap0 ++ m ++ a0) := by
          conv_lhs => rw [← List.take_append_drop 5 (c :: rest)]
          rw [hm1]
        simp only [List.append_assoc] at hdecomp
        refine ⟨(c :: rest).take 5, m, ?_, ?_, hm2, ?_, hm3, ?_⟩
        · simpa [List.append_assoc] using hdecomp
        · rw [List.length_take, List.length_cons]
          rw [List.length_cons] at h5
          omega
        · simp only [List.append_assoc]
          rw [← hdecomp]
          exact hp
        · simp only [hm1] at hm4
          exact hm4
      | none =>
        have hfc4 : findClose (List.drop 4 rest) = none := hfc
        rw [show findTTSMatch (c :: rest) = (match findTTSMatch rest with
            | some (b, cap, a) => some (c :: b, cap, a) | none => none) from by
          simp [findTTSMatch, hp, hfc4]] at h
        cases hr : findTTSMatch rest with
        | none => rw [hr] at h; simp at h
        | some tr =>
          obtain ⟨b1, cap1, a1⟩ := tr
          rw [hr] at h
          simp only [Option.some.injEq, Prod.mk.injEq] at h
          obtain ⟨hb, hcap, ha⟩ := h
          subst hb
          subst hcap
          subst ha
          obtain ⟨om, cm, hm1, hm2, hm3, hm4, hm5, hm6⟩ := ih b1 cap1 a1 hr
          refine ⟨om, cm, ?_, hm2, hm3, hm4, hm5, hm6⟩
          simp only [List.cons_append]
          exact congrArg (List.cons c) hm1
    · have hp2 : ciBegins openMarker (c :: rest) = false :=
        Bool.not_eq_true _ ▸ hp
      rw [show findTTSMatch (c :: rest) = (match findTTSMatch rest with
          | some (b, cap, a) => some (c :: b, cap, a) | none => none) from by
        simp [findTTSMatch, hp2]] at h
      cases hr : findTTSMatch rest with
      | none => rw [hr] at h; simp at h
      | some tr =>
        obtain ⟨b1, cap1, a1⟩ := tr
        rw [hr] at h
        simp only [Option.some.injEq, Prod.mk.injEq] at h
        obtain ⟨hb, hcap, ha⟩ := h
        subst hb
        subst hcap
        subst ha
        obtain ⟨om, cm, hm1, hm2, hm3, hm4, hm5, hm6⟩ := ih b1 cap1 a1 hr
        refine ⟨om, cm, ?_, hm2, hm3, hm4, hm5, hm6⟩
        simp only [List.cons_append]
        exact congrArg (List.cons c) hm1

/-- Claim C6 amended: when the input contains a summary block, the
summary is the trimmed capture of the leftmost lazy match — the match
really decomposes the input around case-insensitive markers and the
capture contains no closing marker — and the display text is the input
with that matched block (and one immediately following newline) removed
and trimmed; when that removal is empty the display text falls back to
the whole original input, markers included, so residual markers are
possible (also via second blocks or marker-shaped junctions). -/
theorem parseResponseBlock (l b cap a : List Char)
    (h : findTTSMatch l = some (b, cap, a)) :
    (∃ om cm, l = b ++ om ++ cap ++ cm ++ a ∧
      om.length = 5 ∧ cm.length = 6 ∧
      ciBegins openMarker (om ++ cap ++ cm ++ a) = true ∧
      ciBegins closeMarker (cm ++ a) = true ∧
      ∀ i < cap.length,
        ciBegins closeMarker ((cap ++ cm ++ a).drop i) = false) ∧
    parseResponse l =
      (trimList cap,
       if (trimList (b ++ dropLeadNL a)).isEmpty then l
       else trimList (b ++ dropLeadNL a)) := by
  refine ⟨findTTSMatch_spec l b cap a h, ?_⟩
  simp [parseResponse, h]

theorem parseResponseBlockWitness :
    findTTSMatch "Say [TTS]Hi there[/TTS]\nmore".toList =
      some ("Say ".toList, "Hi there".toList, "\nmore".toList) ∧
    parseResponse "Say [TTS]Hi there[/TTS]\nmore".toList =
      ("Hi there".toList, "Say more".toList) := by
  refine ⟨by decide, ?_⟩
  have h := (parseResponseBlock "Say [TTS]Hi there[/TTS]\nmore".toList
    "Say ".toList "Hi there".toList "\nmore".toList (by decide)).2
  rw [h]
  decide

/-- Claim C6 counterexample: for an input that is exactly one summary
block, removing the block leaves the empty string, so parseResponse
returns the whole original input — markers included — as the display
text, contradicting both the block-removed shape and the claimed absence
of residual markers. -/
theorem parseResponseMarkerResidue :
    (parseResponse "[TTS]hi[/TTS]".toList).2 = "[TTS]hi[/TTS]".toList ∧
    ciBegins openMarker (parseResponse "[TTS]hi[/TTS]".toList).2 = true := by
  constructor
  · decide
  · decide

lemma dropWhile_length_le (p : Char → Bool) (m : List Char) :
    (m.dropWhile p).length ≤ m.length := by
  induction m with
  | nil => exact Nat.le_refl 0
  | cons c cs ih =>
    rw [List.dropWhile_cons]
    split
    · exact Nat.le_succ_of_le ih
    · exact Nat.le_refl _

lemma trimList_length_le (l : List Char) : (trimList l).length ≤ l.length := by
  unfold trimList
  rw [List.length_reverse]
  calc ((l.dropWhile isJsWS).reverse.dropWhile isJsWS).length
      ≤ (l.dropWhile isJsWS).reverse.length := dropWhile_length_le _ _
    _ = (l.dropWhile isJsWS).length := List.length_reverse _
    _ ≤ l.length := dropWhile_length_le _ _

lemma trimList_ne_nil (l : List Char) (c : Char) (hc : c ∈ l)
    (hw : isJsWS c = false) : trimList l ≠ [] := by
  intro hnil
  unfold trimList at hnil
  rw [List.reverse_eq_nil_iff] at hnil
  have hall2 := List.dropWhile_eq_nil_iff.mp hnil
  have hall : ∀ x ∈ l.dropWhile isJsWS, isJsWS x = true := by
    intro x hx
    exact hall2 x (List.mem_reverse.mpr hx)
  have hsplit : l.takeWhile isJsWS ++ l.dropWhile isJsWS = l :=
    List.takeWhile_append_dropWhile isJsWS l
  have hl : ∀ x ∈ l, isJsWS x = true := by
    intro x hx
    rcases List.mem_append.mp (hsplit.symm ▸ hx) with hx1 | hx1
    · exact List.mem_takeWhile_imp hx1
    · exact hall x hx1
  rw [hl c hc] at hw
  cases hw

lemma isTerm_not_ws (c : Char) (h : isTerm c = true) : isJsWS c = false := by
  simp only [isTerm, Bool.or_eq_true, decide_eq_true_eq] at h
  rcases h with (h | h) | h <;> subst h <;> rfl

lemma splitSentencesAux_mem_term (fuel : Nat) :
    ∀ l s, s ∈ splitSentencesAux fuel l → ∃ c ∈ s, isTerm c = true := by
  induction fuel with
  | zero => intro l s h; cases h
  | succ f ih =>
    intro l s h
    simp only [splitSentencesAux] at h
    split at h
    · cases h
    · rename_i hcond
      rcases List.mem_cons.mp h with hs | hmem
      · have hterms :
            ((l.dropWhile isTerm).dropWhile fun c =>
              !(isTerm c)).takeWhile isTerm ≠ [] := by
          intro hnil
          exact hcond (by simp [hnil])
        cases hterm : ((l.dropWhile isTerm).dropWhile fun c =>
            !(isTerm c)).takeWhile isTerm with
        | nil => exact absurd hterm hterms
        | cons t ts =>
          have htmem : t ∈ ((l.dropWhile isTerm).dropWhile fun c =>
              !(isTerm c)).takeWhile isTerm := by
            rw [hterm]
            exact List.mem_cons_self t ts
          refine ⟨t, ?_, List.mem_takeWhile_imp htmem⟩
          rw [hs]
          exact List.mem_append.mpr (Or.inr htmem)
      · exact ih _ s hmem

lemma buildTts_nil_cons (s : List Char) (r : List (List Char)) :
    buildTts [] (s :: r) = buildTts (trimList s) r := by
  simp [buildTts]

lemma buildTts_ne_nil (r : List (List Char)) :
    ∀ acc : List Char, acc ≠ [] → buildTts acc r ≠ [] := by
  induction r with
  | nil => intro acc h; exact h
  | cons s rest ih =>
    intro acc h
    simp only [buildTts]
    split
    · exact h
    · refine ih _ fun hc => h ?_
      rcases List.append_eq_nil.mp hc with ⟨h1, -⟩
      rcases List.append_eq_nil.mp h1 with ⟨h2, -⟩
      exact h2

lemma buildTts_length (r : List (List Char)) :
    ∀ acc : List Char, acc ≠ [] →
      (buildTts acc r).length ≤ max acc.length 401 := by
  induction r with
  | nil => intro acc _; exact Nat.le_max_left _ _
  | cons s rest ih =>
    intro acc hne
    simp only [buildTts]
    split
    · exact Nat.le_max_left _ _
    · rename_i hcond
      have hpos : 0 < acc.length := List.length_pos.mpr hne
      have hle : acc.length + (trimList s).length ≤ 400 := by
        by_contra hgt
        exact hcond ⟨by omega, hpos⟩
      have hemp : acc.isEmpty = false := by
        cases acc with
        | nil => exact absurd rfl hne
        | cons a as => rfl
      have hif : (if acc.isEmpty then ([] : List Char) else [' ']) = [' '] := by
        rw [hemp]
        rfl
      rw [hif]
      have hnewlen : (acc ++ [' '] ++ trimList s).length =
          acc.length + 1 + (trimList s).length := by
        simp [List.length_append]
        omega
      have hnew_ne : acc ++ [' '] ++ trimList s ≠ [] := by
        intro hc
        rcases List.append_eq_nil.mp hc with ⟨h1, -⟩
        rcases List.append_eq_nil.mp h1 with ⟨h2, -⟩
        exact hne h2
      have hrec := ih (acc ++ [' '] ++ trimList s) hnew_ne
      rw [hnewlen] at hrec
      omega

lemma lastIndexOfPat_spec (l pat : List Char) (i : Nat)
    (h : lastIndexOfPat l pat = some i) :
    pat.isPrefixOf (l.drop i) = true := by
  unfold lastIndexOfPat at h
  have hmem := List.mem_of_getLast?_eq_some h
  exact (List.mem_filter.mp hmem).2

lemma two_isPrefixOf_head (p0 c2 : Char) (x : List Char)
    (h : List.isPrefixOf [p0, c2] x = true) : x.head? = some p0 := by
  cases x with
  | nil => simp [List.isPrefixOf] at h
  | cons y ys =>
    simp only [List.isPrefixOf, Bool.and_eq_true, beq_iff_eq] at h
    rw [List.head?_cons, h.1]

lemma trim_take_pattern_ne_nil (t : List Char) (p0 c2 : Char) (i : Nat)
    (h : lastIndexOfPat t [p0, c2] = some i) (hp0 : isJsWS p0 = false) :
    trimList (t.take (i + 1)) ≠ [] := by
  have hpre := lastIndexOfPat_spec t [p0, c2] i h
  have hgi : t[i]? = some p0 := by
    rw [← List.head?_drop]
    exact two_isPrefixOf_head p0 c2 (t.drop i) hpre
  have hmem : p0 ∈ t.take (i + 1) := by
    have hx : (t.take (i + 1))[i]? = some p0 := by
      rw [List.getElem?_take_of_lt (by omega)]
      exact hgi
    exact List.getElem?_mem hx
  exact trimList_ne_nil _ p0 hmem hp0

lemma maxSixPos (a b c d e f target : Int)
    (h : max (max (max a b) (max c d)) (max e f) = target) :
    target = a ∨ target = b ∨ target = c ∨ target = d ∨
    target = e ∨ target = f := by
  rcases max_choice (max (max a b) (max c d)) (max e f) with h1 | h1 <;>
    rw [h1] at h
  · rcases max_choice (max a b) (max c d) with h2 | h2 <;> rw [h2] at h
    · rcases max_choice a b with h3 | h3 <;> rw [h3] at h
      · exact Or.inl h.symm
      · exact Or.inr (Or.inl h.symm)
    · rcases max_choice c d with h3 | h3 <;> rw [h3] at h
      · exact Or.inr (Or.inr (Or.inl h.symm))
      · exact Or.inr (Or.inr (Or.inr (Or.inl h.symm)))
  · rcases max_choice e f with h2 | h2 <;> rw [h2] at h
    · exact Or.inr (Or.inr (Or.inr (Or.inr (Or.inl h.symm))))
    · exact Or.inr (Or.inr (Or.inr (Or.inr (Or.inr h.symm))))

lemma lastSentence_case (t : List Char) (p0 c2 : Char) (M : Int)
    (hM : M = liToInt (lastIndexOfPat t [p0, c2]))
    (hgt : M * 2 > 300) (hp0 : isJsWS p0 = false) :
    trimList (t.take (M + 1).toNat) ≠ [] := by
  cases hv : lastIndexOfPat t [p0, c2] with
  | none =>
    rw [hv] at hM
    simp only [liToInt] at hM
    omega
  | some i =>
    rw [hv] at hM
    simp only [liToInt] at hM
    have htn : (M + 1).toNat = i + 1 := by omega
    rw [htn]
    exact trim_take_pattern_ne_nil t p0 c2 i hv hp0

lemma truncateToSentences_spec (l : List Char) (hne : l ≠ []) :
    truncateToSentences l 300 ≠ [] ∧
    (truncateToSentences l 300).length ≤ 303 := by
  have hlen0 : ∀ n : Nat, (trimList ((l.take 300).take n)).length ≤ 300 := by
    intro n
    have h1 := trimList_length_le ((l.take 300).take n)
    have h2 : ((l.take 300).take n).length ≤ 300 := by
      rw [List.length_take, List.length_take]
      omega
    omega
  simp only [truncateToSentences]
  split
  · rename_i hlen
    exact ⟨hne, by omega⟩
  · rename_i hlen
    split
    · rename_i hls
      constructor
      · rcases maxSixPos _ _ _ _ _ _ _ rfl with hM | hM | hM | hM | hM | hM
        · exact lastSentence_case _ '.' ' ' _ hM hls rfl
        · exact lastSentence_case _ '!' ' ' _ hM hls rfl
        · exact lastSentence_case _ '?' ' ' _ hM hls rfl
        · exact lastSentence_case _ '.' '\n' _ hM hls rfl
        · exact lastSentence_case _ '!' '\n' _ hM hls rfl
        · exact lastSentence_case _ '?' '\n' _ hM hls rfl
      · have := hlen0 ((max (max (max
            (liToInt (lastIndexOfPat (l.take 300) ['.', ' ']))
            (liToInt (lastIndexOfPat (l.take 300) ['!', ' '])))
            (max (liToInt (lastIndexOfPat (l.take 300) ['?', ' ']))
            (liToInt (lastIndexOfPat (l.take 300) ['.', '\n']))))
            (max (liToInt (lastIndexOfPat (l.take 300) ['!', '\n']))
            (liToInt (lastIndexOfPat (l.take 300) ['?', '\n']))) + 1).toNat)
        omega
    · rename_i hls
      split
      · rename_i hsp
        constructor
        · intro hc
          rcases List.append_eq_nil.mp hc with ⟨-, h2⟩
          simp at h2
        · rw [List.length_append]
          have := hlen0 (liToInt (lastIndexOfPat (l.take 300) [' '])).toNat
          simp only [List.length_cons, List.length_nil]
          omega
      · constructor
        · intro hc
          rcases List.append_eq_nil.mp hc with ⟨-, h2⟩
          simp at h2
        · rw [List.length_append]
          have h1 := trimList_length_le (l.take 300)
          have h2 : (l.take 300).length ≤ 300 := by
            rw [List.length_take]
            omega
          simp only [List.length_cons, List.length_nil]
          omega

/-- Claim C7 amended: for a non-empty input without a summary block, the
fallback summary is non-empty; its length exceeds the 400-character
budget only through the unconditionally taken first sentence — it is
bounded by the larger of the trimmed first sentence length and 401 — and
when the sentence scan finds nothing the truncation fallback keeps it
within 303 characters.  (With a block, the summary is the trimmed block
contents, which can be empty.) -/
theorem fallbackSummary (l : List Char)
    (hb : findTTSMatch l = none) (hne : l ≠ []) :
    (parseResponse l).1 ≠ [] ∧
    (sentencesOf l = [] → (parseResponse l).1.length ≤ 303) ∧
    (∀ s rest, sentencesOf l = s :: rest →
      (parseResponse l).1.length ≤ max (trimList s).length 401) := by
  have hpr : (parseResponse l).1 =
      (if (buildTts [] ((sentencesOf l).take 5)).isEmpty
       then truncateToSentences l 300
       else buildTts [] ((sentencesOf l).take 5)) := by
    simp [parseResponse, hb]
  cases hsents : sentencesOf l with
  | nil =>
    have hb0 : buildTts [] ((sentencesOf l).take 5) = [] := by
      rw [hsents]
      rfl
    have hif : (parseResponse l).1 = truncateToSentences l 300 := by
      rw [hpr, hb0]
      rfl
    rw [hif]
    refine ⟨(truncateToSentences_spec l hne).1,
      fun _ => (truncateToSentences_spec l hne).2, ?_⟩
    intro s rest hcon
    simp at hcon
  | cons s0 rest0 =>
    have htake : (s0 :: rest0).take 5 = s0 :: rest0.take 4 := rfl
    have hstep : buildTts [] ((sentencesOf l).take 5) =
        buildTts (trimList s0) (rest0.take 4) := by
      rw [hsents, htake]
      exact buildTts_nil_cons s0 (rest0.take 4)
    have hterm := splitSentencesAux_mem_term l.length l s0 (by
      show s0 ∈ splitSentencesAux l.length l
      rw [show splitSentencesAux l.length l = sentencesOf l from rfl, hsents]
      exact List.mem_cons_self _ _)
    obtain ⟨c0, hc0mem, hc0t⟩ := hterm
    have htrim_ne : trimList s0 ≠ [] :=
      trimList_ne_nil s0 c0 hc0mem (isTerm_not_ws c0 hc0t)
    have hbuild_ne : buildTts (trimList s0) (rest0.take 4) ≠ [] :=
      buildTts_ne_nil _ _ htrim_ne
    have hempty_false : (buildTts [] ((sentencesOf l).take 5)).isEmpty
        = false := by
      rw [hstep]
      cases hb2 : buildTts (trimList s0) (rest0.take 4) with
      | nil => exact absurd hb2 hbuild_ne
      | cons x xs => rfl
    have hif : (parseResponse l).1 = buildTts [] ((sentencesOf l).take 5) := by
      rw [hpr]
      exact if_neg (by simp [hempty_false])
    refine ⟨by rw [hif, hstep]; exact hbuild_ne, ?_, ?_⟩
    · intro hcon
      simp at hcon
    · intro s rest hcon
      injection hcon with h1 h2
      subst h1
      rw [hif, hstep]
      exact buildTts_length (rest0.take 4) (trimList s0) htrim_ne

theorem fallbackSummaryWitness :
    findTTSMatch "One. Two.".toList = none ∧
    "One. Two.".toList ≠ [] ∧
    (parseResponse "One. Two.".toList).1 ≠ [] :=
  ⟨by decide, by decide,
   (fallbackSummary "One. Two.".toList (by decide) (by decide)).1⟩

/-- An input whose summary block contains only whitespace. -/
def blankBlockInput : List Char := "[TTS] [/TTS]ok".toList

/-- A blockless input that is one 401-character sentence. -/
def longSentenceInput : List Char := List.replicate 400 'a' ++ ['.']

set_option maxRecDepth 40000 in
/-- Claim C7 counterexample: the blank-block input is non-empty yet its
summary is empty (the trimmed block contents), and the one-sentence
blockless input gets a 401-character summary, above the 400-character
budget — the first sentence is taken unconditionally. -/
theorem summaryEmptyOrOverBudget :
    blankBlockInput ≠ [] ∧
    (parseResponse blankBlockInput).1 = [] ∧
    findTTSMatch longSentenceInput = none ∧
    longSentenceInput ≠ [] ∧
    (parseResponse longSentenceInput).1.length = 401 := by
  refine ⟨by decide, by decide, by decide, by decide, by decide⟩

end GatewayClient
